import Mathlib

/-!
Shallow embedding of the `hello-rst` thread pool (`src/lib.rs`).

The crate implements a fixed-size worker thread pool:
* `ThreadPool::new(size)` asserts `size > 0`, creates an mpsc channel, wraps the
  receiver in `Arc<Mutex<..>>` and spawns `size` workers with ids `0..size`;
* `ThreadPool::execute(&self, f)` boxes the job and sends it through the
  retained sender (`self.sender.as_ref().unwrap().send(job).unwrap()`);
* each worker thread loops `receiver.lock().unwrap().recv()`, executing the
  job on `Ok` and breaking out of the loop on `Err` (channel disconnected);
* `Drop for ThreadPool` first drops the taken sender, then for each worker in
  order `take`s the optional join handle and `join().unwrap()`s it.

Panics are modelled as `none` of an `Option`-valued function.  The dynamic
(concurrency) behaviour is modelled separately as a small-step transition
system `Step` further below.
-/

namespace HelloRst

/-- A `thread::JoinHandle<()>` for a worker thread.  The `panicked` field
records whether the underlying thread terminated by panicking, so that
`join()` returns `Err` exactly when it is `true`. -/
structure JoinHandle where
  panicked : Bool
deriving DecidableEq, Repr

/-- Rust `struct Worker { id: usize, thread: Option<thread::JoinHandle<()>> }`. -/
structure Worker where
  id : Nat
  thread : Option JoinHandle
deriving DecidableEq, Repr

/-- Model of `Worker::new(id, receiver)`: spawns the worker thread and stores its
handle as `Some`.  A freshly spawned worker thread has not panicked. -/
def Worker.new (id : Nat) : Worker :=
  { id := id, thread := some { panicked := false } }

/-- The state of the `mpsc::channel` created in `ThreadPool::new`: the queue
of buffered jobs (identified by `Nat` ids, in submission order) together with
whether the shared receiver is still alive. -/
structure MpscChannel where
  buf : List Nat
  receiverAlive : Bool
deriving DecidableEq, Repr

/-- Model of `mpsc::Sender::send`: appends the job to the channel buffer; returns
`Err` (here `none`, since the caller `unwrap`s) when the receiver is gone. -/
def MpscChannel.send (c : MpscChannel) (j : Nat) : Option MpscChannel :=
  if c.receiverAlive then some { c with buf := c.buf ++ [j] } else none

/-- Rust `pub struct ThreadPool { workers: Vec<Worker>, sender: Option<mpsc::Sender<Job>> }`. -/
structure ThreadPool where
  workers : List Worker
  sender : Option Unit
deriving DecidableEq, Repr

/-- Model of `ThreadPool::new(size)`: `assert!(size > 0)` (a panic, modelled as
`none`, before the channel or any worker exists), then creates the channel
and the workers `Worker::new(0) … Worker::new(size-1)` in that order. -/
def ThreadPool.new (size : Nat) : Option (ThreadPool × MpscChannel) :=
  if size > 0 then
    some ({ workers := (List.range size).map Worker.new, sender := some () },
          { buf := [], receiverAlive := true })
  else
    none

/-- Model of `ThreadPool::execute(&self, f)`:
`self.sender.as_ref().unwrap().send(job).unwrap()`.  The first `unwrap`
panics when the sender has been taken (teardown begun); the second when the
send itself fails.  `self` is borrowed immutably, so only the channel state
can change. -/
def ThreadPool.execute (p : ThreadPool) (c : MpscChannel) (j : Nat) :
    Option MpscChannel :=
  match p.sender with
  | none => none
  | some _ => c.send j

/-- A pool together with the channel it feeds, for stating frame properties
of `execute` over the whole visible state. -/
structure PoolSys where
  pool : ThreadPool
  chan : MpscChannel
deriving DecidableEq, Repr

/-- The method `execute` acting on the combined state: the pool itself is behind `&self`
and is returned unchanged; only the channel is threaded through. -/
def PoolSys.execute (s : PoolSys) (j : Nat) : Option PoolSys :=
  match s.pool.execute s.chan j with
  | none => none
  | some c' => some { pool := s.pool, chan := c' }

/-- The `for worker in &mut self.workers` loop of `Drop for ThreadPool`:
`if let Some(thread) = worker.thread.take() { thread.join().unwrap() }`.
Returns the updated workers (every handle taken) together with the ids of the
workers actually joined, in iteration order; `none` models the panic of
`join().unwrap()` on a panicked thread. -/
def joinWorkers : List Worker → Option (List Worker × List Nat)
  | [] => some ([], [])
  | w :: ws =>
    match w.thread with
    | none =>
      match joinWorkers ws with
      | none => none
      | some (ws', js) => some ({ w with thread := none } :: ws', js)
    | some h =>
      if h.panicked then none
      else
        match joinWorkers ws with
        | none => none
        | some (ws', js) => some ({ w with thread := none } :: ws', w.id :: js)

/-- Model of `Drop for ThreadPool`: phase 1 `drop(self.sender.take())` closes the
producer side; phase 2 joins every worker in construction order.  The result
is the pool as left behind by `drop`, together with the ids joined. -/
def ThreadPool.dropPool (p : ThreadPool) : Option (ThreadPool × List Nat) :=
  let closed : ThreadPool := { p with sender := none }
  match joinWorkers closed.workers with
  | none => none
  | some (ws, js) => some ({ closed with workers := ws }, js)

/-! ## Dynamic semantics

The running system is modelled as a small-step transition relation.  A worker
thread is at one of four control points of the loop in `Worker::new`:

* `idle`: at the top of the loop, about to evaluate
  `receiver.lock().unwrap().recv()`;
* `waiting`: holding the receiver mutex, blocked inside `recv()` (the lock is
  held for the whole `let message = …` statement and released when the
  temporary `MutexGuard` is dropped at its end);
* `executing j`: running `job()` for job `j`, the lock already released;
* `stopped`: the `Err(_) => break` arm was taken and the thread has exited.

Worker `i` of the pool is the `i`-th entry of the phase list (ids are
`0..size` in construction order). -/

/-- Control point of a worker thread inside the loop of `Worker::new`. -/
inductive WPhase where
  | idle
  | waiting
  | executing (j : Nat)
  | stopped
deriving DecidableEq, Repr

/-- Result of `mpsc::Receiver::recv()` as matched at line 26 of `lib.rs`:
`Ok(job)` or `Err(RecvError)`. -/
inductive RecvResult where
  | ok (j : Nat)
  | err
deriving DecidableEq, Repr

/-- Model of `mpsc::Receiver::recv` on a channel whose producer side is open iff
`senderOpen` and whose buffer is `q`: returns the oldest buffered job if any;
with an empty buffer it blocks (`none`) while the sender is alive and returns
`Err` once the sender has been dropped.  The second component is the buffer
left behind. -/
def recv (senderOpen : Bool) (q : List Nat) : Option (RecvResult × List Nat) :=
  match q, senderOpen with
  | j :: rest, _ => some (.ok j, rest)
  | [], true => none
  | [], false => some (.err, [])

/-- Global state of the running system: the producer side of the channel, the
buffered jobs, each worker thread's control point, and two history variables
recording every job ever submitted and every job ever claimed, in order. -/
structure SysState where
  senderOpen : Bool
  queue : List Nat
  workers : List WPhase
  submitted : List Nat
  claimed : List Nat
deriving DecidableEq, Repr

/-- Interleaving small-step semantics of the pool.  Producer steps:
`execute` enqueues while the sender is retained, and `Drop` closes the
producer side.  Worker steps follow the loop of `Worker::new`: acquire the
receiver mutex (only when no other worker holds it), then resolve `recv()`
into either claiming the head job (releasing the lock before running it) or
the disconnect signal (releasing the lock and breaking), and finish a running
job returning to the loop top. -/
inductive Step : SysState → SysState → Prop where
  | enqueue (s : SysState) (j : Nat) :
      s.senderOpen = true →
      Step s { s with queue := s.queue ++ [j], submitted := s.submitted ++ [j] }
  | closeSender (s : SysState) :
      s.senderOpen = true →
      Step s { s with senderOpen := false }
  | lockRecv (s : SysState) (i : Nat) :
      s.workers.get? i = some .idle →
      WPhase.waiting ∉ s.workers →
      Step s { s with workers := s.workers.set i .waiting }
  | claimJob (s : SysState) (i j : Nat) (rest : List Nat) :
      s.workers.get? i = some .waiting →
      recv s.senderOpen s.queue = some (.ok j, rest) →
      Step s { s with queue := rest,
                      workers := s.workers.set i (.executing j),
                      claimed := s.claimed ++ [j] }
  | disconnect (s : SysState) (i : Nat) :
      s.workers.get? i = some .waiting →
      recv s.senderOpen s.queue = some (.err, []) →
      Step s { s with workers := s.workers.set i .stopped }
  | finish (s : SysState) (i j : Nat) :
      s.workers.get? i = some (.executing j) →
      Step s { s with workers := s.workers.set i .idle }

/-- State just after `ThreadPool::new(n)`: producer open, empty queue, `n`
workers all at the loop top, empty histories. -/
def initState (n : Nat) : SysState :=
  { senderOpen := true, queue := [], workers := List.replicate n .idle,
    submitted := [], claimed := [] }

/-- Reflexive-transitive closure of `Step`. -/
def Reaches : SysState → SysState → Prop :=
  Relation.ReflTransGen Step

/-- States reachable from a fresh pool of `n` workers. -/
def Reachable (n : Nat) (s : SysState) : Prop :=
  Reaches (initState n) s

/-! ## Helper lemmas -/

section ListHelpers

variable {α : Type}

theorem get?_set_self (l : List α) (i : Nat) (a : α) (h : i < l.length) :
    (l.set i a).get? i = some a := by
  simp [List.get?_eq_getElem?, List.getElem?_set_self, h]

theorem get?_set_other (l : List α) (i k : Nat) (a : α) (h : i ≠ k) :
    (l.set i a).get? k = l.get? k := by
  simp [List.get?_eq_getElem?, List.getElem?_set_ne h]

theorem mem_of_get? {l : List α} {i : Nat} {a : α} (h : l.get? i = some a) :
    a ∈ l :=
  List.get?_mem h

end ListHelpers

/-- A worker whose handle is already taken is left unchanged by the
`take`-and-join step. -/
theorem worker_take_none {w : Worker} (h : w.thread = none) :
    { w with thread := none } = w := by
  cases w
  simp_all

/-- Joining a list of workers whose handles were all already taken performs
no join at all and changes nothing. -/
theorem joinWorkers_all_none {ws : List Worker} (h : ∀ w ∈ ws, w.thread = none) :
    joinWorkers ws = some (ws, []) := by
  induction ws with
  | nil => rfl
  | cons w ws ih =>
    have hw : w.thread = none := h w (List.mem_cons_self w ws)
    have hrest := ih fun w' hw' => h w' (List.mem_cons_of_mem w hw')
    simp [joinWorkers, hw, hrest, worker_take_none hw]

/-- What a successful pass of the join loop guarantees: ids are preserved in
order, every handle ends up taken, the joined ids are exactly the ids of the
workers that still had a handle, in iteration order, and a second pass joins
nothing. -/
theorem joinWorkers_ok {ws ws' : List Worker} {js : List Nat}
    (h : joinWorkers ws = some (ws', js)) :
    ws'.map Worker.id = ws.map Worker.id ∧
    (∀ w ∈ ws', w.thread = none) ∧
    js = (ws.filter (fun w => w.thread.isSome)).map Worker.id ∧
    joinWorkers ws' = some (ws', []) := by
  induction ws generalizing ws' js with
  | nil =>
    simp [joinWorkers] at h
    obtain ⟨h1, h2⟩ := h
    subst h1; subst h2
    simp [joinWorkers]
  | cons w ws ih =>
    match hth : w.thread with
    | none =>
      simp only [joinWorkers, hth] at h
      match hrec : joinWorkers ws with
      | none => simp [hrec] at h
      | some (ws₀, js₀) =>
        simp only [hrec, Option.some.injEq, Prod.mk.injEq] at h
        obtain ⟨h1, h2⟩ := h
        subst h1; subst h2
        obtain ⟨ih1, ih2, ih3, ih4⟩ := ih hrec
        refine ⟨by simp [ih1], ?_, by simp [hth, ih3], ?_⟩
        · intro w' hw'
          rcases List.mem_cons.mp hw' with h | h
          · subst h; rfl
          · exact ih2 w' h
        · simp [joinWorkers, ih4]
    | some hdl =>
      simp only [joinWorkers, hth] at h
      by_cases hp : hdl.panicked
      · simp [hp] at h
      · rw [if_neg hp] at h
        match hrec : joinWorkers ws with
        | none => simp [hrec] at h
        | some (ws₀, js₀) =>
          simp only [hrec, Option.some.injEq, Prod.mk.injEq] at h
          obtain ⟨h1, h2⟩ := h
          subst h1; subst h2
          obtain ⟨ih1, ih2, ih3, ih4⟩ := ih hrec
          refine ⟨by simp [ih1], ?_, by simp [hth, ih3], ?_⟩
          · intro w' hw'
            rcases List.mem_cons.mp hw' with h | h
            · subst h; rfl
            · exact ih2 w' h
          · simp [joinWorkers, ih4]

/-- If some worker's thread panicked, the join loop panics (propagating the
`join().unwrap()` failure), whatever happens earlier in the iteration. -/
theorem joinWorkers_panic {ws : List Worker} {w : Worker} {h : JoinHandle}
    (hw : w ∈ ws) (hth : w.thread = some h) (hp : h.panicked = true) :
    joinWorkers ws = none := by
  induction ws with
  | nil => cases hw
  | cons w₀ ws ih =>
    rcases List.mem_cons.mp hw with heq | hmem
    · subst heq
      simp [joinWorkers, hth, hp]
    · have hrec := ih hmem
      match hth₀ : w₀.thread with
      | none => simp [joinWorkers, hth₀, hrec]
      | some h₀ =>
        by_cases hp₀ : h₀.panicked
        · simp [joinWorkers, hth₀, hp₀]
        · simp [joinWorkers, hth₀, hp₀, hrec]

/-! ## Claims about construction, submission and teardown -/

/-- C3: constructing a pool fails fatally (panics, before any thread is
spawned or queue created) if and only if the requested worker count is zero;
for every positive count construction succeeds.  (The count is a `usize`, so
negative values are not representable.) -/
theorem construction_panics_iff_zero (n : Nat) :
    (ThreadPool.new n).isNone ↔ n = 0 := by
  by_cases h : n = 0
  · subst h; simp [ThreadPool.new]
  · simp [ThreadPool.new, Nat.pos_of_ne_zero h, h]

/-- C9: for every positive `n`, `ThreadPool::new(n)` succeeds and creates
exactly `n` workers whose identities are precisely `0, 1, …, n-1`, assigned
in construction order, hence pairwise distinct. -/
theorem construction_worker_identities (n : Nat) (h : 0 < n) :
    ∃ p c, ThreadPool.new n = some (p, c) ∧
      p.workers.length = n ∧
      p.workers.map Worker.id = List.range n ∧
      (p.workers.map Worker.id).Nodup := by
  refine ⟨{ workers := (List.range n).map Worker.new, sender := some () },
          { buf := [], receiverAlive := true }, ?_, ?_, ?_, ?_⟩ <;>
    simp [ThreadPool.new, h, List.map_map, Function.comp_def, Worker.new,
      List.nodup_range]

/-- Witness for C9 at `n = 2`. -/
theorem construction_worker_identities_witness :
    0 < 2 ∧
    ∃ p c, ThreadPool.new 2 = some (p, c) ∧
      p.workers.length = 2 ∧
      p.workers.map Worker.id = List.range 2 ∧
      (p.workers.map Worker.id).Nodup :=
  ⟨by decide, construction_worker_identities 2 (by decide)⟩

/-- C7: calling `execute` once the producer side has been taken (teardown
begun) panics — the call is rejected rather than silently dropping the job;
and whenever `execute` returns at all, the job really was appended to the
queue (no silent loss). -/
theorem execute_after_teardown_panics (p : ThreadPool) (c : MpscChannel) (j : Nat) :
    (p.sender = none → p.execute c j = none) ∧
    (∀ c', p.execute c j = some c' → c'.buf = c.buf ++ [j]) := by
  constructor
  · intro h
    simp [ThreadPool.execute, h]
  · intro c' h
    match hs : p.sender with
    | none => simp [ThreadPool.execute, hs] at h
    | some _ =>
      simp only [ThreadPool.execute, hs, MpscChannel.send] at h
      by_cases ha : c.receiverAlive <;> simp [ha] at h
      simp [← h]

/-- Witness for C7: a pool whose sender is taken rejects `execute`, and a
live pool appends the job. -/
theorem execute_after_teardown_panics_witness :
    ThreadPool.execute { workers := [], sender := none }
        { buf := [], receiverAlive := true } 7 = none ∧
    MpscChannel.buf { buf := [3], receiverAlive := true } ++ [7] = [3, 7] :=
  ⟨(execute_after_teardown_panics _ _ 7).1 rfl,
   ((execute_after_teardown_panics { workers := [], sender := some () }
      { buf := [3], receiverAlive := true } 7).2 _ rfl).symm ▸ rfl⟩

/-- C2: teardown is two-phase: the producer side ends up closed (taken
exactly once), and the workers are joined in construction order, each
worker's handle taken exactly once — the ids joined are exactly those of the
workers that still held a handle, in order.  Running teardown again on the
resulting pool closes nothing (the sender is already `None`) and joins
nothing (every handle is already taken): no double-close, no double-join. -/
theorem teardown_two_phase (p p' : ThreadPool) (js : List Nat)
    (h : p.dropPool = some (p', js)) :
    p'.sender = none ∧
    js = (p.workers.filter (fun w => w.thread.isSome)).map Worker.id ∧
    p'.workers.map Worker.id = p.workers.map Worker.id ∧
    (∀ w ∈ p'.workers, w.thread = none) ∧
    p'.dropPool = some (p', []) := by
  simp only [ThreadPool.dropPool] at h
  match hj : joinWorkers p.workers with
  | none => simp [hj] at h
  | some (ws, js₀) =>
    simp only [hj, Option.some.injEq, Prod.mk.injEq] at h
    obtain ⟨h1, h2⟩ := h
    subst h2
    obtain ⟨hk1, hk2, hk3, hk4⟩ := joinWorkers_ok hj
    have hw : p'.workers = ws := by rw [← h1]
    have hs : p'.sender = none := by rw [← h1]
    refine ⟨hs, hk3, by rw [hw, hk1], by rw [hw]; exact hk2, ?_⟩
    simp only [ThreadPool.dropPool, hw, hk4, hs]
    cases p'
    simp_all

/-- Witness for C2: tearing down a live two-worker pool joins workers `0`
then `1` and leaves a closed, fully-taken pool on which a second teardown is
a no-op. -/
theorem teardown_two_phase_witness :
    ThreadPool.sender { workers := [], sender := none } = none ∧
    ([0, 1] : List Nat) =
      (([Worker.new 0, Worker.new 1] : List Worker).filter
        (fun w => w.thread.isSome)).map Worker.id ∧
    ([Worker.mk 0 none, Worker.mk 1 none] : List Worker).map Worker.id =
      ([Worker.new 0, Worker.new 1] : List Worker).map Worker.id ∧
    (∀ w ∈ ([Worker.mk 0 none, Worker.mk 1 none] : List Worker), w.thread = none) ∧
    ThreadPool.dropPool { workers := [Worker.mk 0 none, Worker.mk 1 none], sender := none } =
      some ({ workers := [Worker.mk 0 none, Worker.mk 1 none], sender := none }, []) :=
  teardown_two_phase
    { workers := [Worker.new 0, Worker.new 1], sender := some () }
    { workers := [Worker.mk 0 none, Worker.mk 1 none], sender := none }
    [0, 1] rfl

/-- C8: if some worker's thread panicked and hence cannot be joined,
teardown panics on the join result (`join().unwrap()`) instead of silently
skipping or leaking that thread. -/
theorem teardown_join_failure_panics (p : ThreadPool) (w : Worker)
    (h : JoinHandle) (hw : w ∈ p.workers) (hth : w.thread = some h)
    (hp : h.panicked = true) :
    p.dropPool = none := by
  simp [ThreadPool.dropPool, joinWorkers_panic hw hth hp]

/-- Witness for C8: a pool whose only worker panicked makes teardown panic. -/
theorem teardown_join_failure_panics_witness :
    ThreadPool.dropPool
      { workers := [Worker.mk 0 (some { panicked := true })], sender := some () } = none :=
  teardown_join_failure_panics _ (Worker.mk 0 (some { panicked := true }))
    { panicked := true } (List.mem_singleton.mpr rfl) rfl rfl

/-- C10: `execute` borrows the pool immutably and mutates no pool state:
after a call, the workers (identities and thread handles) and the sender are
unchanged, and the only change to the channel is that its buffer grew by the
one submitted job. -/
theorem execute_frame (s : PoolSys) (j : Nat) (s' : PoolSys)
    (h : s.execute j = some s') :
    s'.pool = s.pool ∧
    s'.pool.workers = s.pool.workers ∧
    s'.pool.sender = s.pool.sender ∧
    s'.chan.buf = s.chan.buf ++ [j] ∧
    s'.chan.receiverAlive = s.chan.receiverAlive := by
  simp only [PoolSys.execute] at h
  match he : s.pool.execute s.chan j with
  | none => simp [he] at h
  | some c' =>
    simp only [he, Option.some.injEq] at h
    subst h
    have hb : c'.buf = s.chan.buf ++ [j] ∧ c'.receiverAlive = s.chan.receiverAlive := by
      match hs : s.pool.sender with
      | none => simp [ThreadPool.execute, hs] at he
      | some _ =>
        simp only [ThreadPool.execute, hs, MpscChannel.send] at he
        by_cases ha : s.chan.receiverAlive <;> simp [ha] at he
        simp [← he, ha]
    exact ⟨rfl, rfl, rfl, hb.1, hb.2⟩

/-- Witness for C10 on a concrete one-worker pool and one job. -/
theorem execute_frame_witness :
    PoolSys.pool { pool := { workers := [Worker.new 0], sender := some () },
                   chan := { buf := [1, 9], receiverAlive := true } } =
      { workers := [Worker.new 0], sender := some () } ∧
    ThreadPool.workers { workers := [Worker.new 0], sender := some () } =
      [Worker.new 0] ∧
    ThreadPool.sender { workers := [Worker.new 0], sender := some () } = some () ∧
    MpscChannel.buf { buf := [1, 9, 4], receiverAlive := true } = [1, 9] ++ [4] ∧
    MpscChannel.receiverAlive { buf := [1, 9, 4], receiverAlive := true } = true := by
  have := execute_frame
    { pool := { workers := [Worker.new 0], sender := some () },
      chan := { buf := [1, 9], receiverAlive := true } } 4
    { pool := { workers := [Worker.new 0], sender := some () },
      chan := { buf := [1, 9, 4], receiverAlive := true } } rfl
  exact this

/-! ## Lemmas about the dynamic semantics -/

theorem lt_of_get? {α : Type} {l : List α} {i : Nat} {a : α}
    (h : l.get? i = some a) : i < l.length := by
  by_contra hlt
  rw [List.get?_eq_none.mpr (Nat.le_of_not_lt hlt)] at h
  cases h

theorem get?_set_cases {α : Type} {l : List α} {i k : Nat} {a b : α}
    (h : (l.set i a).get? k = some b) :
    (k = i ∧ b = a) ∨ (k ≠ i ∧ l.get? k = some b) := by
  by_cases hk : k = i
  · subst hk
    have hlen : k < l.length := by
      have := lt_of_get? h
      simpa using this
    rw [get?_set_self l k a hlen] at h
    exact Or.inl ⟨rfl, (Option.some.injEq _ _ ▸ h).symm⟩
  · right
    rw [get?_set_other l i k a (fun he => hk he.symm)] at h
    exact ⟨hk, h⟩

theorem recv_ok_shape {o : Bool} {q rest : List Nat} {j : Nat}
    (h : recv o q = some (.ok j, rest)) : q = j :: rest := by
  match q, o with
  | [], true => simp [recv] at h
  | [], false => simp [recv] at h
  | a :: t, o =>
    simp only [recv, Option.some.injEq, Prod.mk.injEq, RecvResult.ok.injEq] at h
    rw [h.1, h.2]

theorem recv_err_shape {o : Bool} {q rest : List Nat}
    (h : recv o q = some (.err, rest)) :
    o = false ∧ q = [] ∧ rest = [] := by
  match q, o with
  | [], true => simp [recv] at h
  | [], false =>
    simp [recv] at h
    simp [h]
  | a :: t, o =>
    simp only [recv, Option.some.injEq, Prod.mk.injEq] at h
    exact absurd h.1 (by simp)

/-- One step preserves the job-accounting invariant: the claimed history
followed by the still-buffered jobs is exactly the submission history. -/
theorem accounting_step {s s' : SysState} (h : Step s s')
    (hinv : s.claimed ++ s.queue = s.submitted) :
    s'.claimed ++ s'.queue = s'.submitted := by
  cases h with
  | enqueue j hopen =>
    simp only []
    rw [← List.append_assoc, hinv]
  | closeSender hopen => exact hinv
  | lockRecv i hidle hfree => exact hinv
  | claimJob i j rest hwait hrecv =>
    have hq := recv_ok_shape hrecv
    simp only []
    rw [List.append_assoc, List.singleton_append, ← hq, hinv]
  | disconnect i hwait hrecv => exact hinv
  | finish i j hexec => exact hinv

/-- The job-accounting invariant holds in every reachable state. -/
theorem accounting_invariant {n : Nat} {s : SysState} (h : Reachable n s) :
    s.claimed ++ s.queue = s.submitted := by
  induction h with
  | refl => rfl
  | tail _ hstep ih => exact accounting_step hstep ih

/-- C1: in every reachable state, the claimed jobs followed by the buffered
jobs are exactly the submitted jobs, in order.  Hence jobs are claimed in
submission order (the claimed history is an initial segment of the
submission history), none duplicated or lost, and once the queue is drained
(teardown not initiated before all jobs are claimed) every submitted job has
been claimed exactly once. -/
theorem jobs_claimed_in_order_exactly_once (n : Nat) (s : SysState)
    (h : Reachable n s) :
    s.claimed ++ s.queue = s.submitted ∧
    (∃ rest, s.claimed ++ rest = s.submitted) ∧
    (s.queue = [] → s.claimed = s.submitted) := by
  have hinv := accounting_invariant h
  refine ⟨hinv, ⟨s.queue, hinv⟩, fun hq => ?_⟩
  rw [hq, List.append_nil] at hinv
  exact hinv

/-- At most one worker holds the receiver mutex (is inside
`receiver.lock().unwrap().recv()`) at any instant. -/
def claimExclusive (s : SysState) : Prop :=
  ∀ i k, s.workers.get? i = some .waiting → s.workers.get? k = some .waiting →
    i = k

theorem claimExclusive_step {s s' : SysState} (h : Step s s')
    (hinv : claimExclusive s) : claimExclusive s' := by
  cases h with
  | enqueue j hopen => exact hinv
  | closeSender hopen => exact hinv
  | lockRecv i hidle hfree =>
    intro a b ha hb
    rcases get?_set_cases ha with ⟨rfl, _⟩ | ⟨hne, ha'⟩
    · rcases get?_set_cases hb with ⟨rfl, _⟩ | ⟨hne, hb'⟩
      · rfl
      · exact absurd (mem_of_get? hb') hfree
    · exact absurd (mem_of_get? ha') hfree
  | claimJob i j rest hwait hrecv =>
    intro a b ha hb
    rcases get?_set_cases ha with ⟨_, hcontra⟩ | ⟨_, ha'⟩
    · cases hcontra
    rcases get?_set_cases hb with ⟨_, hcontra⟩ | ⟨_, hb'⟩
    · cases hcontra
    exact hinv a b ha' hb'
  | disconnect i hwait hrecv =>
    intro a b ha hb
    rcases get?_set_cases ha with ⟨_, hcontra⟩ | ⟨_, ha'⟩
    · cases hcontra
    rcases get?_set_cases hb with ⟨_, hcontra⟩ | ⟨_, hb'⟩
    · cases hcontra
    exact hinv a b ha' hb'
  | finish i j hexec =>
    intro a b ha hb
    rcases get?_set_cases ha with ⟨_, hcontra⟩ | ⟨_, ha'⟩
    · cases hcontra
    rcases get?_set_cases hb with ⟨_, hcontra⟩ | ⟨_, hb'⟩
    · cases hcontra
    exact hinv a b ha' hb'

theorem claimExclusive_invariant {n : Nat} {s : SysState}
    (h : Reachable n s) : claimExclusive s := by
  induction h with
  | refl =>
    intro i k hi _
    have := List.eq_of_mem_replicate (mem_of_get? hi)
    cases this
  | tail _ hstep ih => exact claimExclusive_step hstep ih

/-- An intermediate state of the demonstration run with two workers: worker
`0` is executing job `10` while worker `1` holds the receiver lock waiting
for job `20`. -/
def demoMid : SysState :=
  { senderOpen := true, queue := [20], workers := [.executing 10, .waiting],
    submitted := [10, 20], claimed := [10] }

/-- Final state of the demonstration run: both workers execute their jobs at
the same time. -/
def demoFinal : SysState :=
  { senderOpen := true, queue := [], workers := [.executing 10, .executing 20],
    submitted := [10, 20], claimed := [10, 20] }

theorem reach_demoMid : Reachable 2 demoMid := by
  have e1 : Step (initState 2)
      { senderOpen := true, queue := [10], workers := [.idle, .idle],
        submitted := [10], claimed := [] } :=
    Step.enqueue (initState 2) 10 rfl
  have e2 : Step
      { senderOpen := true, queue := [10], workers := [.idle, .idle],
        submitted := [10], claimed := [] }
      { senderOpen := true, queue := [10, 20], workers := [.idle, .idle],
        submitted := [10, 20], claimed := [] } :=
    Step.enqueue _ 20 rfl
  have e3 : Step
      { senderOpen := true, queue := [10, 20], workers := [.idle, .idle],
        submitted := [10, 20], claimed := [] }
      { senderOpen := true, queue := [10, 20], workers := [.waiting, .idle],
        submitted := [10, 20], claimed := [] } :=
    Step.lockRecv _ 0 rfl (by decide)
  have e4 : Step
      { senderOpen := true, queue := [10, 20], workers := [.waiting, .idle],
        submitted := [10, 20], claimed := [] }
      { senderOpen := true, queue := [20], workers := [.executing 10, .idle],
        submitted := [10, 20], claimed := [10] } :=
    Step.claimJob _ 0 10 [20] rfl rfl
  have e5 : Step
      { senderOpen := true, queue := [20], workers := [.executing 10, .idle],
        submitted := [10, 20], claimed := [10] }
      demoMid :=
    Step.lockRecv _ 1 rfl (by decide)
  exact .head e1 (.head e2 (.head e3 (.head e4 (.head e5 .refl))))

theorem reach_demoFinal : Reachable 2 demoFinal :=
  Relation.ReflTransGen.tail reach_demoMid (Step.claimJob demoMid 1 20 [] rfl rfl)

/-- C5: mutual exclusion on the shared receiver covers only the act of
claiming the next job: in every reachable state at most one worker is inside
the locked `recv` (the lock is released before the claimed job runs), and two
workers of a two-worker pool can reach a state in which both are executing
their jobs at the same time — a long-running job blocks only the worker
running it. -/
theorem lock_covers_only_claim :
    (∀ (n : Nat) (s : SysState), Reachable n s → ∀ i k,
      s.workers.get? i = some .waiting → s.workers.get? k = some .waiting →
        i = k) ∧
    (∃ s : SysState, Reachable 2 s ∧
      s.workers.get? 0 = some (.executing 10) ∧
      s.workers.get? 1 = some (.executing 20)) :=
  ⟨fun _ _ h => claimExclusive_invariant h, demoFinal, reach_demoFinal, rfl, rfl⟩

/-- Witness for C5, instantiating the mutual-exclusion half in the reachable
state `demoMid`, whose only lock holder is worker `1`. -/
theorem lock_covers_only_claim_witness : (1 : Nat) = 1 :=
  lock_covers_only_claim.1 2 demoMid reach_demoMid 1 1 rfl rfl

/-- Witness for C1 in the reachable state `demoFinal`: both submitted jobs
have been claimed, in submission order, exactly once. -/
theorem jobs_claimed_in_order_exactly_once_witness :
    SysState.claimed demoFinal ++ SysState.queue demoFinal =
      SysState.submitted demoFinal ∧
    (∃ rest, SysState.claimed demoFinal ++ rest = SysState.submitted demoFinal) ∧
    (SysState.queue demoFinal = [] →
      SysState.claimed demoFinal = SysState.submitted demoFinal) :=
  jobs_claimed_in_order_exactly_once 2 demoFinal reach_demoFinal

/-- A step never changes the number of workers. -/
theorem step_workers_length {s s' : SysState} (h : Step s s') :
    s'.workers.length = s.workers.length := by
  cases h <;> simp [List.length_set]

/-- How one step can change the control point of worker `i`: it is left
unchanged, or it follows one of the four edges of the loop in `Worker::new` —
acquire the free lock, turn a received job into execution, turn the
disconnect signal into loop exit, or finish a job. -/
theorem step_phase {s s' : SysState} {i : Nat} {ph : WPhase}
    (hstep : Step s s') (h : s.workers.get? i = some ph) :
    s'.workers.get? i = some ph ∨
    (ph = .idle ∧ s'.workers.get? i = some .waiting ∧
      WPhase.waiting ∉ s.workers) ∨
    (∃ j rest, ph = .waiting ∧ s'.workers.get? i = some (.executing j) ∧
      recv s.senderOpen s.queue = some (.ok j, rest) ∧ s'.queue = rest) ∨
    (ph = .waiting ∧ s'.workers.get? i = some .stopped ∧
      recv s.senderOpen s.queue = some (.err, [])) ∨
    (∃ j, ph = .executing j ∧ s'.workers.get? i = some .idle) := by
  cases hstep with
  | enqueue j hopen => exact Or.inl h
  | closeSender hopen => exact Or.inl h
  | lockRecv k hidle hfree =>
    by_cases hik : i = k
    · subst hik
      have hph : ph = .idle := by rw [h] at hidle; exact Option.some_inj.mp hidle
      have hlen : i < s.workers.length := lt_of_get? h
      exact Or.inr (Or.inl ⟨hph, get?_set_self _ _ _ hlen, hfree⟩)
    · exact Or.inl ((get?_set_other _ _ _ _ fun he => hik he.symm).trans h)
  | claimJob k j rest hwait hrecv =>
    by_cases hik : i = k
    · subst hik
      have hph : ph = .waiting := by rw [h] at hwait; exact Option.some_inj.mp hwait
      have hlen : i < s.workers.length := lt_of_get? h
      exact Or.inr (Or.inr (Or.inl
        ⟨j, rest, hph, get?_set_self _ _ _ hlen, hrecv, rfl⟩))
    · exact Or.inl ((get?_set_other _ _ _ _ fun he => hik he.symm).trans h)
  | disconnect k hwait hrecv =>
    by_cases hik : i = k
    · subst hik
      have hph : ph = .waiting := by rw [h] at hwait; exact Option.some_inj.mp hwait
      have hlen : i < s.workers.length := lt_of_get? h
      exact Or.inr (Or.inr (Or.inr (Or.inl
        ⟨hph, get?_set_self _ _ _ hlen, hrecv⟩)))
    · exact Or.inl ((get?_set_other _ _ _ _ fun he => hik he.symm).trans h)
  | finish k j hexec =>
    by_cases hik : i = k
    · subst hik
      have hph : ph = .executing j := by
        rw [h] at hexec; exact Option.some_inj.mp hexec
      have hlen : i < s.workers.length := lt_of_get? h
      exact Or.inr (Or.inr (Or.inr (Or.inr
        ⟨j, hph, get?_set_self _ _ _ hlen⟩)))
    · exact Or.inl ((get?_set_other _ _ _ _ fun he => hik he.symm).trans h)

/-- C4: a worker blocked in `claim` (the locked `recv`) either stays blocked,
receives a job, or receives the closure signal.  The closure signal is
returned only when the producer side is closed and no job remains buffered
(never while undelivered jobs remain); a returned job is always the oldest
buffered one; and with an empty buffer and an open producer the worker stays
blocked. -/
theorem claim_blocks_until_job_or_closure (s s' : SysState) (i : Nat)
    (hstep : Step s s') :
    (s.workers.get? i = some .waiting → s'.workers.get? i = some .stopped →
      s.senderOpen = false ∧ s.queue = []) ∧
    (∀ j, s.workers.get? i = some .waiting →
      s'.workers.get? i = some (.executing j) → s.queue = j :: s'.queue) ∧
    (s.workers.get? i = some .waiting → s.senderOpen = true → s.queue = [] →
      s'.workers.get? i = some .waiting) := by
  refine ⟨?_, ?_, ?_⟩
  · intro hw hstop
    rcases step_phase hstep hw with h | ⟨hph, _⟩ | ⟨j, rest, _, hex, _⟩ |
      ⟨_, _, hrecv⟩ | ⟨j, hph, _⟩
    · rw [h] at hstop; cases hstop
    · cases hph
    · rw [hex] at hstop; cases hstop
    · have := recv_err_shape hrecv
      exact ⟨this.1, this.2.1⟩
    · cases hph
  · intro j hw hex
    rcases step_phase hstep hw with h | ⟨hph, _⟩ | ⟨j', rest, _, hex', hrecv, hq⟩ |
      ⟨_, hstop, _⟩ | ⟨j', hph, _⟩
    · rw [h] at hex; cases hex
    · cases hph
    · rw [hex'] at hex
      have hj : j' = j := by
        have := Option.some.injEq (WPhase.executing j') (WPhase.executing j) ▸ hex
        cases hex
        rfl
      subst hj
      rw [hq]
      exact recv_ok_shape hrecv
    · rw [hstop] at hex; cases hex
    · cases hph
  · intro hw hopen hq
    rcases step_phase hstep hw with h | ⟨hph, _⟩ | ⟨j', rest, _, _, hrecv, _⟩ |
      ⟨_, _, hrecv⟩ | ⟨j', hph, _⟩
    · exact h
    · cases hph
    · rw [hopen, hq] at hrecv; cases hrecv
    · rw [hopen, hq] at hrecv; cases hrecv
    · cases hph

/-- Witness for C4 on a concrete step: with the producer closed and the
queue empty, the blocked worker `0` receives the closure signal. -/
theorem claim_blocks_until_job_or_closure_witness :
    SysState.senderOpen
      { senderOpen := false, queue := [], workers := [.waiting],
        submitted := [], claimed := [] } = false ∧
    SysState.queue
      { senderOpen := false, queue := [], workers := [.waiting],
        submitted := [], claimed := [] } = [] :=
  (claim_blocks_until_job_or_closure
      { senderOpen := false, queue := [], workers := [.waiting],
        submitted := [], claimed := [] }
      { senderOpen := false, queue := [], workers := [.stopped],
        submitted := [], claimed := [] } 0
      (Step.disconnect _ 0 rfl rfl)).1 rfl rfl

/-- A stopped worker stays stopped across a single step. -/
theorem stopped_persists_step {s s' : SysState} {i : Nat} (hstep : Step s s')
    (h : s.workers.get? i = some .stopped) :
    s'.workers.get? i = some .stopped := by
  rcases step_phase hstep h with h' | ⟨hph, _⟩ | ⟨j, rest, hph, _⟩ |
    ⟨hph, _⟩ | ⟨j, hph, _⟩
  · exact h'
  · cases hph
  · cases hph
  · cases hph
  · cases hph

/-- C6: each worker is a two-state machine.  Every worker of a fresh pool
starts in its running loop (at the loop top); the only way its thread stops
is the step in which the locked `recv` returns the closure signal (producer
closed, queue empty) while the worker was blocked in `claim`; and once
stopped it stays stopped along every possible continuation — no worker is
ever revived. -/
theorem worker_two_state_machine (n : Nat) (s s' : SysState) (i : Nat) :
    (i < n → (initState n).workers.get? i = some .idle) ∧
    (Step s s' → s.workers.get? i ≠ some .stopped →
      s'.workers.get? i = some .stopped →
      s.workers.get? i = some .waiting ∧ s.senderOpen = false ∧ s.queue = []) ∧
    (Reaches s s' → s.workers.get? i = some .stopped →
      s'.workers.get? i = some .stopped) := by
  refine ⟨?_, ?_, ?_⟩
  · intro hi
    simp [initState, List.get?_eq_getElem?, List.getElem?_replicate, hi]
  · intro hstep hne hstop
    have hlen : i < s.workers.length := by
      rw [← step_workers_length hstep]
      exact lt_of_get? hstop
    obtain ⟨ph, hph⟩ : ∃ ph, s.workers.get? i = some ph := by
      rw [List.get?_eq_getElem?, List.getElem?_eq_getElem hlen]
      exact ⟨_, rfl⟩
    rcases step_phase hstep hph with h' | ⟨hphi, h', _⟩ |
      ⟨j, rest, hphi, h', _⟩ | ⟨hphi, h', hrecv⟩ | ⟨j, hphi, h'⟩
    · have : ph = .stopped := Option.some_inj.mp (h'.symm.trans hstop)
      subst this
      exact absurd hph hne
    · cases Option.some_inj.mp (h'.symm.trans hstop)
    · cases Option.some_inj.mp (h'.symm.trans hstop)
    · subst hphi
      have := recv_err_shape hrecv
      exact ⟨hph, this.1, this.2.1⟩
    · cases Option.some_inj.mp (h'.symm.trans hstop)
  · intro hreach hstop
    induction hreach with
    | refl => exact hstop
    | tail _ hstep ih => exact stopped_persists_step hstep ih

/-- Witness for C6 with one worker: it starts idle; the concrete disconnect
step from a closed, drained queue stops it and is reported as such; and the
stopped state persists along the empty continuation. -/
theorem worker_two_state_machine_witness :
    SysState.workers (initState 1) = [.idle] ∧
    (SysState.workers
        { senderOpen := false, queue := [], workers := [.waiting],
          submitted := [4], claimed := [4] } |>.get? 0) = some .waiting ∧
    (SysState.workers
        { senderOpen := false, queue := [], workers := [.stopped],
          submitted := [4], claimed := [4] } |>.get? 0) = some .stopped := by
  refine ⟨rfl, ?_, ?_⟩
  · exact ((worker_two_state_machine 1
      { senderOpen := false, queue := [], workers := [.waiting],
        submitted := [4], claimed := [4] }
      { senderOpen := false, queue := [], workers := [.stopped],
        submitted := [4], claimed := [4] } 0).2.1
      (Step.disconnect _ 0 rfl rfl) (by decide) rfl).1
  · exact (worker_two_state_machine 1
      { senderOpen := false, queue := [], workers := [.stopped],
        submitted := [4], claimed := [4] }
      { senderOpen := false, queue := [], workers := [.stopped],
        submitted := [4], claimed := [4] } 0).2.2
      Relation.ReflTransGen.refl rfl

end HelloRst
